import Mathlib

/-!
Verification development for the patch-application and self-correcting
refactor engine of the GAS-Code-Assistant repository.

The engine lives in src/App.tsx:
  * `applyChangesToFiles` (lines 300-368): groups a flat change list by file
    name, locates each change's `originalCodeSnippet` in the (incrementally
    patched) file content with an offset-adjusted `indexOf` scan, splices in
    the `correctedCodeSnippet`, and collects the changes that could not be
    located as `FailedChange`s with reason `SNIPPET_NOT_FOUND`.
  * `handleConfirmRefactor` (lines 398-468): the bounded self-correction
    loop (MAX_ATTEMPTS = 3) around a single recommendation, committing the
    new file state plus an undo snapshot only when every change applied.
  * `handleBatchApply` (lines 482-564): the batch-apply path, which pushes
    an undo snapshot up front and tolerates partial success.
  * `pushToUndoStack` (lines 74-80) and `handleUndo` (lines 566-577): the
    bounded undo stack.

File contents and code snippets are modelled as `List Char` (JavaScript
strings are sequences of UTF-16 code units; all the engine ever does is
compare, split and concatenate them, for which a list of characters is a
faithful model).  The external LLM collaborators (`correctRefactorResult`,
`batchRefactorCode`) are modelled as oracle function parameters, and a
thrown exception from a collaborator is modelled as the oracle returning
`none`.  The pure React state updates (`setLibraryFiles` and friends) are
modelled as explicit state passing on an `AppState` record.
-/

/-- JavaScript `pat.isPrefixOf`-style match test: does `pat` occur in `s`
starting at position `i`?  (Mirrors the comparison `indexOf` performs at a
candidate position.) -/
def matchAt (s pat : List Char) (i : Nat) : Bool :=
  pat.isPrefixOf (s.drop i)

/-- Scan helper for JavaScript `String.prototype.indexOf`: `idxOfAux pat l b`
returns the smallest absolute index `j ≥ b` such that `pat` occurs in the
scanned suffix `l` at relative position `j - b`, testing candidate positions
left to right, including the position one past the end (where only the empty
pattern matches). -/
def idxOfAux (pat : List Char) : List Char → Nat → Option Nat
  | [], b => if pat.isPrefixOf ([] : List Char) then some b else none
  | c :: t, b => if pat.isPrefixOf (c :: t) then some b else idxOfAux pat t (b + 1)

/-- JavaScript `s.indexOf(pat, start)`: the from-index is clamped to
`[0, s.length]` (our `start` is already a natural number, so only the upper
clamp matters), then the first occurrence at or after it is returned;
`none` models the JavaScript result `-1`. -/
def jsIndexOf (s pat : List Char) (start : Nat) : Option Nat :=
  idxOfAux pat (s.drop (min start s.length)) (min start s.length)

/-- UploadedFile from src/types.ts.  `changesCount` is optional in
TypeScript and read through `|| 0` (App.tsx line 363), so a missing count is
identified with `0` and the field is a plain `Nat`. -/
structure UploadedFile where
  name : String
  content : List Char
  changesCount : Nat
deriving DecidableEq, Repr

/-- RefactorChange from src/types.ts: replace `originalCodeSnippet` by
`correctedCodeSnippet` in the file called `fileName`. -/
structure RefactorChange where
  fileName : String
  description : Option String := none
  originalCodeSnippet : List Char
  correctedCodeSnippet : List Char
deriving DecidableEq, Repr

/-- The only failure reason the engine produces (src/types.ts lines 141-144). -/
inductive FailReason where
  | SNIPPET_NOT_FOUND
deriving DecidableEq, Repr

/-- FailedChange from src/types.ts. -/
structure FailedChange where
  change : RefactorChange
  reason : FailReason
deriving DecidableEq, Repr

/-- The ephemeral Patch record of App.tsx lines 324-328: the located start
index and original length of an already-applied change. -/
structure Patch where
  index : Nat
  originalLength : Nat
  change : RefactorChange
deriving DecidableEq, Repr

/-- The per-file loop state of App.tsx lines 323-361: `content` is the local
`currentContent`, `patches` the `appliedPatches` array, `applied` the
changes pushed to `successfullyAppliedChanges` for this file, and `failed`
the `FailedChange`s pushed so far. -/
structure FileApplyState where
  content : List Char
  patches : List Patch
  applied : List RefactorChange
  failed : List FailedChange
deriving DecidableEq, Repr

/-- The snippet-locating half of the `changes.forEach` loop body (App.tsx
lines 332-344).  `naive` is `tempContent.indexOf(change.originalCodeSnippet)`
(with `-1` for "not found", hence the `Int`), `offset` is the cumulative
length difference of already-applied patches whose index precedes the naive
hit, and the final search restarts from `max(0, naive - offset)`.  The
`appliedPatches.sort` on line 335 only permutes the list the offset is
summed over, and the sum is order-independent, so the model keeps the
patches in push order. -/
def locateChange (content : List Char) (patches : List Patch) (change : RefactorChange) :
    Option Nat :=
  let naive : Int :=
    match jsIndexOf content change.originalCodeSnippet 0 with
    | some i => (i : Int)
    | none => -1
  let offset : Int := patches.foldl
    (fun acc patch =>
      if (patch.index : Int) < naive then
        acc + ((patch.change.correctedCodeSnippet.length : Int) - (patch.originalLength : Int))
      else acc) 0
  let searchStartIndex : Nat := (max 0 (naive - offset)).toNat
  jsIndexOf content change.originalCodeSnippet searchStartIndex

/-- The body of the `changes.forEach` loop in App.tsx lines 331-361: locate
the snippet, then either splice in the replacement and record the patch, or
record the failure. -/
def applyOneChange (st : FileApplyState) (change : RefactorChange) : FileApplyState :=
  match locateChange st.content st.patches change with
  | some index =>
      { content := st.content.take index ++ change.correctedCodeSnippet ++
          st.content.drop (index + change.originalCodeSnippet.length),
        patches := st.patches ++ [⟨index, change.originalCodeSnippet.length, change⟩],
        applied := st.applied ++ [change],
        failed := st.failed }
  | none =>
      { st with failed := st.failed ++ [⟨change, FailReason.SNIPPET_NOT_FOUND⟩] }

/-- Runs the whole per-file `changes.forEach` loop on one file's content. -/
def applyFileChanges (content : List Char) (changes : List RefactorChange) : FileApplyState :=
  changes.foldl applyOneChange ⟨content, [], [], []⟩

/-- One step of building the `changesByFile` map of App.tsx lines 306-312:
append the change to its file's group, creating the group on first sight. -/
def groupStep (acc : List (String × List RefactorChange)) (change : RefactorChange) :
    List (String × List RefactorChange) :=
  if acc.any (fun g => g.1 = change.fileName) then
    acc.map (fun g => if g.1 = change.fileName then (g.1, g.2 ++ [change]) else g)
  else acc ++ [(change.fileName, [change])]

/-- The `changesByFile` map of App.tsx lines 306-312: JavaScript `Map`
iteration order is key-insertion order, so the groups are listed in order of
each file name's first occurrence, each group holding its changes in
encounter order. -/
def groupByFileName (allChanges : List RefactorChange) : List (String × List RefactorChange) :=
  allChanges.foldl groupStep []

/-- JavaScript `Array.prototype.findIndex` by file name, returning the index
together with the found element (`none` models `-1`). -/
def findFile : List UploadedFile → String → Option (Nat × UploadedFile)
  | [], _ => none
  | f :: fs, nm =>
      if f.name = nm then some (0, f)
      else (findFile fs nm).map (fun p => (p.1 + 1, p.2))

/-- Return value of `applyChangesToFiles` (App.tsx line 367). -/
structure ApplyAcc where
  newLibraryFiles : List UploadedFile
  newFrontendFiles : List UploadedFile
  failedChanges : List FailedChange
deriving DecidableEq, Repr

/-- The body of the `changesByFile.forEach` loop in App.tsx lines 314-365:
pick the library list iff it contains the file name, find the file, run the
per-file loop, and write back the new content together with the incremented
`changesCount` ( the old count plus
`successfullyAppliedChanges.filter(c => c.fileName === fileName).length`,
which for this group is exactly the group's applied changes). -/
def applyStep (acc : ApplyAcc) (fileName : String) (changes : List RefactorChange) : ApplyAcc :=
  if acc.newLibraryFiles.any (fun f => f.name = fileName) then
    match findFile acc.newLibraryFiles fileName with
    | some (i, file) =>
        let r := applyFileChanges file.content changes
        { acc with
            newLibraryFiles := acc.newLibraryFiles.set i
              { file with content := r.content,
                          changesCount := file.changesCount +
                            (r.applied.filter (fun c => c.fileName = fileName)).length },
            failedChanges := acc.failedChanges ++ r.failed }
    | none =>
        { acc with failedChanges := acc.failedChanges ++
            changes.map (fun c => ⟨c, FailReason.SNIPPET_NOT_FOUND⟩) }
  else
    match findFile acc.newFrontendFiles fileName with
    | some (i, file) =>
        let r := applyFileChanges file.content changes
        { acc with
            newFrontendFiles := acc.newFrontendFiles.set i
              { file with content := r.content,
                          changesCount := file.changesCount +
                            (r.applied.filter (fun c => c.fileName = fileName)).length },
            failedChanges := acc.failedChanges ++ r.failed }
    | none =>
        { acc with failedChanges := acc.failedChanges ++
            changes.map (fun c => ⟨c, FailReason.SNIPPET_NOT_FOUND⟩) }

/-- The per-file write-back object of App.tsx lines 363-364, exactly as
`applyStep` constructs it: the file with the group's new content and the
changesCount increased by the applied changes filtered to this file name.
Named so that theorems can speak about the patched library copy. -/
def patchFileWith (f : UploadedFile) (changes : List RefactorChange) (nm : String) :
    UploadedFile :=
  { f with content := (applyFileChanges f.content changes).content,
           changesCount := f.changesCount +
             ((applyFileChanges f.content changes).applied.filter
               (fun c => c.fileName = nm)).length }

/-- applyChangesToFiles from App.tsx lines 300-368.  The JSON round-trip
deep copies on lines 301-302 are the identity in a functional model. -/
def applyChangesToFiles (allChanges : List RefactorChange)
    (currentLibraryFiles currentFrontendFiles : List UploadedFile) : ApplyAcc :=
  (groupByFileName allChanges).foldl
    (fun acc g => applyStep acc g.1 g.2)
    ⟨currentLibraryFiles, currentFrontendFiles, []⟩

/-- ManualStep from src/types.ts; opaque pass-through data for the UI. -/
structure ManualStep where
  title : String
  description : String
  fileName : Option String := none
deriving DecidableEq, Repr

/-- RefactorResult from src/types.ts. -/
structure RefactorResult where
  mainChange : RefactorChange
  relatedChanges : List RefactorChange
  manualSteps : List ManualStep
deriving DecidableEq, Repr

/-- BatchRefactorResult from src/types.ts. -/
structure BatchRefactorResult where
  changes : List RefactorChange
  manualSteps : List ManualStep
deriving DecidableEq, Repr

/-- SuggestedFix from src/types.ts. -/
structure SuggestedFix where
  title : String
  description : String
  correctedCodeSnippet : String
deriving DecidableEq, Repr

/-- Recommendation from src/types.ts (second revision, with
`appliedRefactorResult`). -/
structure Recommendation where
  description : String
  originalCodeSnippet : Option String
  suggestions : List SuggestedFix
  appliedSuggestionIndex : Option Nat := none
  appliedRefactorResult : Option RefactorResult := none
deriving DecidableEq, Repr

/-- FileAnalysis from src/types.ts. -/
structure FileAnalysis where
  fileName : String
  recommendations : List Recommendation
deriving DecidableEq, Repr

/-- Analysis from src/types.ts. -/
structure Analysis where
  libraryProject : List FileAnalysis
  frontendProject : List FileAnalysis
  overallSummary : String
deriving DecidableEq, Repr

/-- UndoState from App.tsx lines 16-20. -/
structure UndoState where
  libraryFiles : List UploadedFile
  frontendFiles : List UploadedFile
  analysisResult : Option Analysis
deriving DecidableEq, Repr

/-- The React state the engine touches: the two file lists, the analysis
result and the undo stack (App.tsx lines 33-57). -/
structure AppState where
  libraryFiles : List UploadedFile
  frontendFiles : List UploadedFile
  analysisResult : Option Analysis
  undoStack : List UndoState
deriving DecidableEq, Repr

/-- MAX_UNDO_STACK_SIZE from App.tsx line 29. -/
def MAX_UNDO_STACK_SIZE : Nat := 10

/-- pushToUndoStack from App.tsx lines 74-80: append, then `shift()` the
oldest entry once if the bound is exceeded. -/
def pushToUndoStack (stack : List UndoState) (state : UndoState) : List UndoState :=
  let newStack := stack ++ [state]
  if MAX_UNDO_STACK_SIZE < newStack.length then newStack.drop 1 else newStack

/-- handleUndo from App.tsx lines 566-577: no-op on an empty stack,
otherwise restore the top snapshot wholesale and pop it. -/
def handleUndo (st : AppState) : AppState :=
  match st.undoStack.getLast? with
  | none => st
  | some lastState =>
      { libraryFiles := lastState.libraryFiles,
        frontendFiles := lastState.frontendFiles,
        analysisResult := lastState.analysisResult,
        undoStack := st.undoStack.dropLast }

/-- The `refactoringRecommendation` record of App.tsx line 47 (which
recommendation a single-fix apply belongs to). -/
structure RecRef where
  fileName : String
  recIndex : Nat
  suggestionIndex : Nat
deriving DecidableEq, Repr

/-- Updates the first element satisfying `p`, like a JavaScript
`array.find(...)` followed by in-place mutation of the found object. -/
def updateFirst {α : Type} (p : α → Bool) (f : α → α) : List α → List α
  | [] => []
  | x :: xs => if p x then f x :: xs else x :: updateFirst p f xs

/-- The recommendation mutation on App.tsx lines 442-445: if index
`recIndex` exists, record the applied suggestion and refactor result on it. -/
def setAppliedOnRec (recs : List Recommendation) (recIndex suggestionIndex : Nat)
    (result : RefactorResult) : List Recommendation :=
  match recs[recIndex]? with
  | some r0 =>
      recs.set recIndex
        { r0 with appliedSuggestionIndex := some suggestionIndex,
                  appliedRefactorResult := some result }
  | none => recs

/-- The analysis annotation of App.tsx lines 437-446 (single-fix commit):
choose the project half that contains `fileName`, find the first matching
file analysis and mark the applied recommendation. -/
def annotateAnalysis (a : Analysis) (rr : RecRef) (result : RefactorResult) : Analysis :=
  let upd := updateFirst (fun p => p.fileName = rr.fileName)
    (fun fa => { fa with recommendations := (setAppliedOnRec
        fa.recommendations rr.recIndex rr.suggestionIndex result) })
  if a.libraryProject.any (fun p => p.fileName = rr.fileName) then
    { a with libraryProject := upd a.libraryProject }
  else
    { a with frontendProject := upd a.frontendProject }

/-- MAX_ATTEMPTS from App.tsx line 399. -/
def MAX_ATTEMPTS : Nat := 3

/-- Outcome of one run of the single-recommendation apply path:
`committed` is the success branch, `maxAttemptsError` the terminal failure
of App.tsx lines 406-411 (carrying the failed file names shown to the
user), and `selfCorrectionError` the catch branch of lines 425-429 (the
correction collaborator threw). -/
inductive ConfirmOutcome where
  | committed
  | maxAttemptsError (failedFileNames : List String)
  | selfCorrectionError
deriving DecidableEq, Repr

/-- The success branch of handleConfirmRefactor (App.tsx lines 431-447,
excluding the changelog step, see `confirmGo`): push the pre-apply snapshot,
adopt the new file lists, and annotate the analysis when both an analysis
and a recommendation reference are present. -/
def commitRefactor (st : AppState) (rr : Option RecRef) (result : RefactorResult)
    (ar : ApplyAcc) : AppState :=
  let stack := pushToUndoStack st.undoStack
    (⟨st.libraryFiles, st.frontendFiles, st.analysisResult⟩ : UndoState)
  let analysis : Option Analysis :=
    match st.analysisResult, rr with
    | some a, some r => some (annotateAnalysis a r result)
    | _, _ => st.analysisResult
  { libraryFiles := ar.newLibraryFiles,
    frontendFiles := ar.newFrontendFiles,
    analysisResult := analysis,
    undoStack := stack }

/-- The self-correction recursion of handleConfirmRefactor (App.tsx lines
398-468), made structural by recursing on `remaining`, the number of
retries still allowed; the code's `attempt` counter relates to it by
`remaining = MAX_ATTEMPTS - attempt`, so the guard `attempt >= MAX_ATTEMPTS`
of line 406 is exactly `remaining = 0`.  `co` is the external
`correctRefactorResult` collaborator (src/services/geminiService.ts lines
565-611), given the arguments the code passes it (the current result, the
failed changes and the current file lists); `none` models a thrown
exception.  The returned `Nat` counts how many times `applyChangesToFiles`
ran.  The changelog step (`maybeUpdateChangelog`, App.tsx line 456) is
driven by another external collaborator and only rewrites the content of a
CHANGELOG.MD file after the commit; it is outside the modelled state
transitions. -/
def confirmGo
    (co : RefactorResult → List FailedChange → List UploadedFile → List UploadedFile →
      Option RefactorResult)
    (rr : Option RecRef) :
    Nat → RefactorResult → AppState → AppState × ConfirmOutcome × Nat
  | 0, result, st =>
      let allChanges := result.mainChange :: result.relatedChanges
      let ar := applyChangesToFiles allChanges st.libraryFiles st.frontendFiles
      if 0 < ar.failedChanges.length then
        (st, ConfirmOutcome.maxAttemptsError
          (ar.failedChanges.map (fun f => f.change.fileName)), 1)
      else
        (commitRefactor st rr result ar, ConfirmOutcome.committed, 1)
  | r + 1, result, st =>
      let allChanges := result.mainChange :: result.relatedChanges
      let ar := applyChangesToFiles allChanges st.libraryFiles st.frontendFiles
      if 0 < ar.failedChanges.length then
        match co result ar.failedChanges st.libraryFiles st.frontendFiles with
        | some corrected =>
            let inner := confirmGo co rr r corrected st
            (inner.1, inner.2.1, inner.2.2 + 1)
        | none => (st, ConfirmOutcome.selfCorrectionError, 1)
      else
        (commitRefactor st rr result ar, ConfirmOutcome.committed, 1)

/-- handleConfirmRefactor from App.tsx lines 398-468 with the code's
`attempt` parameter (first call passes 1). -/
def handleConfirmRefactor
    (co : RefactorResult → List FailedChange → List UploadedFile → List UploadedFile →
      Option RefactorResult)
    (result : RefactorResult) (attempt : Nat) (rr : Option RecRef) (st : AppState) :
    AppState × ConfirmOutcome × Nat :=
  confirmGo co rr (MAX_ATTEMPTS - attempt) result st

/-- Failed changes of one application attempt of a RefactorResult against
the current file lists (the `failedChanges` the loop inspects on App.tsx
line 405); used to state properties of the correction loop. -/
def attemptFailures (result : RefactorResult) (st : AppState) : List FailedChange :=
  (applyChangesToFiles (result.mainChange :: result.relatedChanges)
    st.libraryFiles st.frontendFiles).failedChanges

/-- One entry of the `selectedFixes` record (App.tsx line 59); the source
names the recommendation field `rec`, a reserved word in Lean. -/
structure SelectedFix where
  fileName : String
  recommendation : Recommendation
  recIndex : Nat
  suggestionIndex : Nat
deriving DecidableEq, Repr

/-- The recommendation mutation on App.tsx lines 535-537 (batch commit):
only `appliedSuggestionIndex` is recorded. -/
def setSuggestionOnRec (recs : List Recommendation) (recIndex suggestionIndex : Nat) :
    List Recommendation :=
  match recs[recIndex]? with
  | some r0 => recs.set recIndex { r0 with appliedSuggestionIndex := some suggestionIndex }
  | none => recs

/-- The per-fix analysis annotation of App.tsx lines 531-538. -/
def annotateBatchFix (a : Analysis) (fix : SelectedFix) : Analysis :=
  let upd := updateFirst (fun p => p.fileName = fix.fileName)
    (fun fa => { fa with recommendations :=
        setSuggestionOnRec fa.recommendations fix.recIndex fix.suggestionIndex })
  if a.libraryProject.any (fun p => p.fileName = fix.fileName) then
    { a with libraryProject := upd a.libraryProject }
  else
    { a with frontendProject := upd a.frontendProject }

/-- Outcome of one run of handleBatchApply: `noFixes` is the early return of
App.tsx lines 484-487, `generatorError` the catch branch of lines 557-560
(the batch collaborator threw), `allFailed` the every-change-failed return
of lines 519-524, and `success` the (possibly partial) commit. -/
inductive BatchOutcome where
  | noFixes
  | generatorError
  | allFailed
  | success
deriving DecidableEq, Repr

/-- handleBatchApply from App.tsx lines 482-564.  `batchResult` is the
output of the external `batchRefactorCode` collaborator (`none` models a
thrown exception).  Note the undo snapshot is pushed on lines 489-493,
before the collaborator is called and before any change is applied.  The
`if (newAnalysis)` guard around the annotation loop (lines 529-540) is the
`Option.map` below.  The changelog step is external, as in `confirmGo`. -/
def handleBatchApply (fixes : List SelectedFix) (batchResult : Option BatchRefactorResult)
    (st : AppState) : AppState × BatchOutcome :=
  if fixes.isEmpty then (st, BatchOutcome.noFixes)
  else
    let snap : UndoState := ⟨st.libraryFiles, st.frontendFiles, st.analysisResult⟩
    let st1 := { st with undoStack := pushToUndoStack st.undoStack snap }
    match batchResult with
    | none => (st1, BatchOutcome.generatorError)
    | some result =>
        let ar := applyChangesToFiles result.changes st1.libraryFiles st1.frontendFiles
        if ar.failedChanges.length = result.changes.length ∧ 0 < result.changes.length then
          (st1, BatchOutcome.allFailed)
        else
          let st2 := { st1 with libraryFiles := ar.newLibraryFiles,
                                frontendFiles := ar.newFrontendFiles }
          let newAnalysis := st2.analysisResult.map (fun a => fixes.foldl annotateBatchFix a)
          let st3 := { st2 with analysisResult := newAnalysis }
          (st3, BatchOutcome.success)

/-! Helper lemmas about the scan primitive. -/

lemma idxOfAux_none (pat : List Char) :
    ∀ (l : List Char), (∀ k ≤ l.length, pat.isPrefixOf (l.drop k) = false) →
    ∀ b, idxOfAux pat l b = none := by
  intro l
  induction l with
  | nil =>
      intro h b
      have h0 := h 0 (by simp)
      simp only [List.drop] at h0
      simp [idxOfAux, h0]
  | cons c t ih =>
      intro h b
      have h0 := h 0 (by simp)
      simp only [List.drop] at h0
      simp only [idxOfAux, h0, Bool.false_eq_true, if_false]
      exact ih (fun k hk => h (k + 1) (by simpa using hk)) (b + 1)

lemma jsIndexOf_none (s pat : List Char)
    (h : ∀ k ≤ s.length, matchAt s pat k = false) (start : Nat) :
    jsIndexOf s pat start = none := by
  unfold jsIndexOf
  apply idxOfAux_none
  intro k hk
  rw [List.drop_drop]
  have hlen : min start s.length + k ≤ s.length := by
    have := List.length_drop (min start s.length) s
    omega
  simpa [matchAt] using h (min start s.length + k) hlen

lemma idxOfAux_some (pat : List Char) :
    ∀ (l : List Char) (b j : Nat), idxOfAux pat l b = some j →
    b ≤ j ∧ j - b ≤ l.length ∧ pat.isPrefixOf (l.drop (j - b)) = true := by
  intro l
  induction l with
  | nil =>
      intro b j h
      unfold idxOfAux at h
      by_cases hp : pat.isPrefixOf ([] : List Char)
      · simp [hp] at h
        subst h
        simpa using hp
      · simp [hp] at h
  | cons c t ih =>
      intro b j h
      unfold idxOfAux at h
      by_cases hp : pat.isPrefixOf (c :: t)
      · simp [hp] at h
        subst h
        simpa using hp
      · simp [hp] at h
        obtain ⟨hb, hlen, hpre⟩ := ih (b + 1) j h
        refine ⟨by omega, by simpa using by omega, ?_⟩
        have : j - b = (j - (b + 1)) + 1 := by omega
        rw [this]
        simpa using hpre

lemma jsIndexOf_zero_some (s pat : List Char) (j : Nat)
    (h : jsIndexOf s pat 0 = some j) :
    j ≤ s.length ∧ matchAt s pat j = true := by
  unfold jsIndexOf at h
  simp only [Nat.zero_min, List.drop_zero] at h
  obtain ⟨hb, hlen, hpre⟩ := idxOfAux_some pat s 0 j h
  simp only [Nat.sub_zero] at hlen hpre
  exact ⟨hlen, hpre⟩

lemma idxOfAux_of_prefix (pat l : List Char) (b : Nat)
    (h : pat.isPrefixOf l = true) : idxOfAux pat l b = some b := by
  cases l <;> simp [idxOfAux, h]

lemma jsIndexOf_found_at (s pat : List Char) (p : Nat)
    (hp : p ≤ s.length) (h : matchAt s pat p = true) :
    jsIndexOf s pat p = some p := by
  unfold jsIndexOf
  rw [min_eq_left hp]
  exact idxOfAux_of_prefix pat (s.drop p) p h

/-! Helper lemmas about the per-change loop body. -/

lemma offset_fold_neg_naive (patches : List Patch) :
    ∀ (acc : Int), patches.foldl
      (fun acc patch =>
        if (patch.index : Int) < (-1 : Int) then
          acc + ((patch.change.correctedCodeSnippet.length : Int) - (patch.originalLength : Int))
        else acc) acc = acc := by
  induction patches with
  | nil => intro acc; rfl
  | cons p ps ih =>
      intro acc
      have hp : ¬((p.index : Int) < (-1 : Int)) := by omega
      simp only [List.foldl_cons, hp, if_false]
      exact ih acc

lemma locateChange_not_found (content : List Char) (patches : List Patch)
    (change : RefactorChange)
    (h : ∀ k ≤ content.length, matchAt content change.originalCodeSnippet k = false) :
    locateChange content patches change = none := by
  unfold locateChange
  rw [jsIndexOf_none content change.originalCodeSnippet h 0]
  simp only
  rw [offset_fold_neg_naive patches 0]
  have hmax : ((max 0 ((-1 : Int) - 0)).toNat) = 0 := by decide
  rw [hmax]
  exact jsIndexOf_none content change.originalCodeSnippet h 0

lemma locateChange_first_found (content : List Char) (change : RefactorChange) (i : Nat)
    (h : jsIndexOf content change.originalCodeSnippet 0 = some i) :
    locateChange content [] change = some i := by
  unfold locateChange
  rw [h]
  simp only [List.foldl_nil]
  obtain ⟨hle, hm⟩ := jsIndexOf_zero_some content change.originalCodeSnippet i h
  have hmax : ((max 0 ((i : Int) - 0)).toNat) = i := by omega
  rw [hmax]
  exact jsIndexOf_found_at content change.originalCodeSnippet i hle hm

lemma applyOneChange_not_found (st : FileApplyState) (change : RefactorChange)
    (h : ∀ k ≤ st.content.length, matchAt st.content change.originalCodeSnippet k = false) :
    applyOneChange st change =
      { st with failed := st.failed ++ [⟨change, FailReason.SNIPPET_NOT_FOUND⟩] } := by
  unfold applyOneChange
  rw [locateChange_not_found st.content st.patches change h]

lemma applyOneChange_len (st : FileApplyState) (change : RefactorChange) :
    (applyOneChange st change).applied.length + (applyOneChange st change).failed.length =
      st.applied.length + st.failed.length + 1 := by
  unfold applyOneChange
  cases locateChange st.content st.patches change with
  | none => simp; omega
  | some j => simp; omega

lemma applyFileChanges_fold_len (changes : List RefactorChange) :
    ∀ (st : FileApplyState),
      (changes.foldl applyOneChange st).applied.length +
        (changes.foldl applyOneChange st).failed.length =
      st.applied.length + st.failed.length + changes.length := by
  induction changes with
  | nil => intro st; simp
  | cons c cs ih =>
      intro st
      simp only [List.foldl_cons, List.length_cons]
      rw [ih (applyOneChange st c), applyOneChange_len]
      omega

lemma applyOneChange_applied_sub (st : FileApplyState) (change : RefactorChange) :
    ∀ c ∈ (applyOneChange st change).applied, c ∈ st.applied ∨ c = change := by
  intro c hc
  unfold applyOneChange at hc
  revert hc
  cases locateChange st.content st.patches change with
  | none => intro hc; exact Or.inl hc
  | some j =>
      intro hc
      simp only [List.mem_append, List.mem_singleton] at hc
      exact hc

lemma applyFileChanges_fold_mem (changes : List RefactorChange) :
    ∀ (st : FileApplyState) (c : RefactorChange),
      c ∈ (changes.foldl applyOneChange st).applied → c ∈ st.applied ∨ c ∈ changes := by
  induction changes with
  | nil => intro st c hc; exact Or.inl hc
  | cons c0 cs ih =>
      intro st c hc
      simp only [List.foldl_cons] at hc
      rcases ih (applyOneChange st c0) c hc with h | h
      · rcases applyOneChange_applied_sub st c0 c h with h' | h'
        · exact Or.inl h'
        · exact Or.inr (by simp [h'])
      · exact Or.inr (by simp [h])

/-! Helper lemmas about file lookup and list update. -/

lemma findFile_some :
    ∀ (l : List UploadedFile) (nm : String) (i : Nat) (f : UploadedFile),
      findFile l nm = some (i, f) → l[i]? = some f ∧ f.name = nm := by
  intro l
  induction l with
  | nil => intro nm i f h; simp [findFile] at h
  | cons g gs ih =>
      intro nm i f h
      unfold findFile at h
      by_cases hg : g.name = nm
      · simp [hg] at h
        obtain ⟨hi, hf⟩ := h
        subst hi; subst hf
        simpa using hg
      · simp [hg] at h
        cases hrec : findFile gs nm with
        | none => rw [hrec] at h; simp at h
        | some p =>
            obtain ⟨pi, pf⟩ := p
            rw [hrec] at h
            simp at h
            obtain ⟨hi, ⟨h1, h2⟩, h3⟩ := h
            obtain ⟨hget, hname⟩ := ih nm pi pf hrec
            subst h1
            subst h2
            subst h3
            exact ⟨by simpa using hget, hname⟩

lemma findFile_of_any :
    ∀ (l : List UploadedFile) (nm : String),
      l.any (fun f => f.name = nm) = true → ∃ i f, findFile l nm = some (i, f) := by
  intro l
  induction l with
  | nil => intro nm h; simp at h
  | cons g gs ih =>
      intro nm h
      by_cases hg : g.name = nm
      · exact ⟨0, g, by simp [findFile, hg]⟩
      · simp [hg] at h
        obtain ⟨i, f, hf⟩ := ih nm (by simpa using h)
        exact ⟨i + 1, f, by simp [findFile, hg, hf]⟩

lemma getElem?_mem_of_some {α : Type} :
    ∀ (l : List α) (i : Nat) (x : α), l[i]? = some x → x ∈ l := by
  intro l
  induction l with
  | nil => intro i x h; simp at h
  | cons a as ih =>
      intro i x h
      cases i with
      | zero => simp at h; simp [h]
      | succ j =>
          simp only [List.getElem?_cons_succ] at h
          exact List.mem_cons_of_mem a (ih j x h)

lemma set_getElem?_self {α : Type} :
    ∀ (l : List α) (i : Nat) (x : α), l[i]? = some x → l.set i x = l := by
  intro l
  induction l with
  | nil => intro i x h; simp at h
  | cons a as ih =>
      intro i x h
      cases i with
      | zero => simp at h; simp [h]
      | succ j =>
          simp only [List.getElem?_cons_succ] at h
          simp [List.set_cons_succ, ih j x h]

lemma any_set_same_name :
    ∀ (l : List UploadedFile) (i : Nat) (f g : UploadedFile),
      l[i]? = some f → g.name = f.name →
      ∀ (nm : String),
        (l.set i g).any (fun x => x.name = nm) = l.any (fun x => x.name = nm) := by
  intro l
  induction l with
  | nil => intro i f g h _ nm; simp at h
  | cons a as ih =>
      intro i f g h hname nm
      cases i with
      | zero =>
          simp at h
          subst h
          simp [hname]
      | succ j =>
          simp only [List.getElem?_cons_succ] at h
          simp [List.set_cons_succ, ih j f g h hname nm]

lemma getElem?_set_of_ne {α : Type} :
    ∀ (l : List α) (i j : Nat) (x : α), i ≠ j → (l.set i x)[j]? = l[j]? := by
  intro l
  induction l with
  | nil => intro i j x _; simp
  | cons a as ih =>
      intro i j x hij
      cases i with
      | zero =>
          cases j with
          | zero => exact absurd rfl hij
          | succ k => simp
      | succ i' =>
          cases j with
          | zero => simp
          | succ k => simp [List.set_cons_succ, ih i' k x (by omega)]

/-! Helper lemmas about the per-file grouping. -/

lemma groupStep_fold_single (nm : String) :
    ∀ (rest : List RefactorChange) (pre : List RefactorChange),
      (∀ c ∈ rest, c.fileName = nm) →
      rest.foldl groupStep [(nm, pre)] = [(nm, pre ++ rest)] := by
  intro rest
  induction rest with
  | nil => intro pre _; simp
  | cons c cs ih =>
      intro pre h
      have hc : c.fileName = nm := h c (by simp)
      simp only [List.foldl_cons]
      have hstep : groupStep [(nm, pre)] c = [(nm, pre ++ [c])] := by
        simp [groupStep, hc]
      rw [hstep, ih (pre ++ [c]) (fun x hx => h x (by simp [hx]))]
      simp

lemma groupByFileName_single (nm : String) (changes : List RefactorChange)
    (hne : changes ≠ []) (h : ∀ c ∈ changes, c.fileName = nm) :
    groupByFileName changes = [(nm, changes)] := by
  cases changes with
  | nil => exact absurd rfl hne
  | cons c cs =>
      have hc : c.fileName = nm := h c (by simp)
      unfold groupByFileName
      simp only [List.foldl_cons]
      have hfirst : groupStep [] c = [(nm, [c])] := by
        simp [groupStep, hc]
      rw [hfirst, groupStep_fold_single nm cs [c] (fun x hx => h x (by simp [hx]))]
      simp

/-! Helper lemmas about the undo stack and the self-correction loop. -/

lemma pushToUndoStack_getLast (stack : List UndoState) (s : UndoState) :
    (pushToUndoStack stack s).getLast? = some s := by
  unfold pushToUndoStack
  simp only
  split
  case isTrue h =>
      cases stack with
      | nil => simp [MAX_UNDO_STACK_SIZE] at h
      | cons a as => simp [List.getLast?_concat]
  case isFalse h => simp [List.getLast?_concat]

lemma handleUndo_of_push (st' : AppState) (base : List UndoState) (s : UndoState)
    (h : st'.undoStack = pushToUndoStack base s) :
    (handleUndo st').libraryFiles = s.libraryFiles ∧
    (handleUndo st').frontendFiles = s.frontendFiles ∧
    (handleUndo st').analysisResult = s.analysisResult := by
  unfold handleUndo
  rw [h, pushToUndoStack_getLast]
  exact ⟨rfl, rfl, rfl⟩

lemma confirmGo_not_committed
    (co : RefactorResult → List FailedChange → List UploadedFile → List UploadedFile →
      Option RefactorResult) (rr : Option RecRef) :
    ∀ (rem : Nat) (result : RefactorResult) (st : AppState),
      (confirmGo co rr rem result st).2.1 ≠ ConfirmOutcome.committed →
      (confirmGo co rr rem result st).1 = st := by
  intro rem
  induction rem with
  | zero =>
      intro result st h
      by_cases hc : 0 < (applyChangesToFiles (result.mainChange :: result.relatedChanges)
          st.libraryFiles st.frontendFiles).failedChanges.length
      · simp [confirmGo, hc]
      · simp [confirmGo, hc] at h
  | succ r ih =>
      intro result st h
      by_cases hc : 0 < (applyChangesToFiles (result.mainChange :: result.relatedChanges)
          st.libraryFiles st.frontendFiles).failedChanges.length
      · simp only [confirmGo, hc, if_true] at h ⊢
        cases hco : co result (applyChangesToFiles (result.mainChange :: result.relatedChanges)
            st.libraryFiles st.frontendFiles).failedChanges st.libraryFiles st.frontendFiles with
        | none => rfl
        | some corrected =>
            rw [hco] at h
            exact ih corrected st h
      · simp [confirmGo, hc] at h


lemma confirmGo_committed_shape
    (co : RefactorResult → List FailedChange → List UploadedFile → List UploadedFile →
      Option RefactorResult) (rr : Option RecRef) :
    ∀ (rem : Nat) (result : RefactorResult) (st st' : AppState) (n : Nat),
      confirmGo co rr rem result st = (st', ConfirmOutcome.committed, n) →
      ∃ res ar, st' = commitRefactor st rr res ar := by
  intro rem
  induction rem with
  | zero =>
      intro result st st' n h
      by_cases hc : 0 < (applyChangesToFiles (result.mainChange :: result.relatedChanges)
          st.libraryFiles st.frontendFiles).failedChanges.length
      · simp [confirmGo, hc] at h
      · simp [confirmGo, hc] at h
        exact ⟨result, _, h.1.symm⟩
  | succ r ih =>
      intro result st st' n h
      by_cases hc : 0 < (applyChangesToFiles (result.mainChange :: result.relatedChanges)
          st.libraryFiles st.frontendFiles).failedChanges.length
      · simp only [confirmGo, hc, if_true] at h
        cases hco : co result (applyChangesToFiles (result.mainChange :: result.relatedChanges)
            st.libraryFiles st.frontendFiles).failedChanges st.libraryFiles st.frontendFiles with
        | none =>
            rw [hco] at h
            simp at h
        | some corrected =>
            rw [hco] at h
            simp only [Prod.mk.injEq] at h
            obtain ⟨h1, h2, _⟩ := h
            have : confirmGo co rr r corrected st =
                ((confirmGo co rr r corrected st).1, (confirmGo co rr r corrected st).2.1,
                  (confirmGo co rr r corrected st).2.2) := rfl
            exact ih corrected st st' (confirmGo co rr r corrected st).2.2
              (by rw [this, h1, h2])
      · simp [confirmGo, hc] at h
        exact ⟨result, _, h.1.symm⟩

lemma confirmGo_count_le
    (co : RefactorResult → List FailedChange → List UploadedFile → List UploadedFile →
      Option RefactorResult) (rr : Option RecRef) :
    ∀ (rem : Nat) (result : RefactorResult) (st : AppState),
      (confirmGo co rr rem result st).2.2 ≤ rem + 1 := by
  intro rem
  induction rem with
  | zero =>
      intro result st
      by_cases hc : 0 < (applyChangesToFiles (result.mainChange :: result.relatedChanges)
          st.libraryFiles st.frontendFiles).failedChanges.length
      · simp [confirmGo, hc]
      · simp [confirmGo, hc]
  | succ r ih =>
      intro result st
      by_cases hc : 0 < (applyChangesToFiles (result.mainChange :: result.relatedChanges)
          st.libraryFiles st.frontendFiles).failedChanges.length
      · simp only [confirmGo, hc, if_true]
        cases hco : co result (applyChangesToFiles (result.mainChange :: result.relatedChanges)
            st.libraryFiles st.frontendFiles).failedChanges st.libraryFiles st.frontendFiles with
        | none => simp
        | some corrected =>
            simp only
            have := ih corrected st
            omega
      · simp [confirmGo, hc]

/-! Helper lemmas about the per-file dispatch step. -/

lemma applyStep_preserves (lib : List UploadedFile) (i : Nat) (file : UploadedFile)
    (hlib : lib.any (fun f => f.name = file.name) = true) :
    ∀ (acc : ApplyAcc) (fileName : String) (changes : List RefactorChange),
      (∀ nm, acc.newLibraryFiles.any (fun f => f.name = nm) = lib.any (fun f => f.name = nm)) →
      acc.newFrontendFiles[i]? = some file →
      (∀ nm, (applyStep acc fileName changes).newLibraryFiles.any (fun f => f.name = nm) =
          lib.any (fun f => f.name = nm)) ∧
      (applyStep acc fileName changes).newFrontendFiles[i]? = some file := by
  intro acc fileName changes hany hget
  unfold applyStep
  cases hc : acc.newLibraryFiles.any (fun f => f.name = fileName) with
  | true =>
      simp only [hc, if_true]
      cases hff : findFile acc.newLibraryFiles fileName with
      | none => exact ⟨hany, hget⟩
      | some p =>
          obtain ⟨j, f⟩ := p
          obtain ⟨hgj, hnamej⟩ := findFile_some acc.newLibraryFiles fileName j f hff
          refine ⟨fun nm => ?_, hget⟩
          simp only
          rw [any_set_same_name acc.newLibraryFiles j f
            { f with content := (applyFileChanges f.content changes).content,
                     changesCount := f.changesCount +
                       ((applyFileChanges f.content changes).applied.filter
                         (fun c => c.fileName = fileName)).length } hgj rfl nm]
          exact hany nm
  | false =>
      simp only [hc, Bool.false_eq_true, if_false]
      cases hff : findFile acc.newFrontendFiles fileName with
      | none => exact ⟨hany, hget⟩
      | some p =>
          obtain ⟨j, g⟩ := p
          obtain ⟨hgj, hnamej⟩ := findFile_some acc.newFrontendFiles fileName j g hff
          have hne : j ≠ i := by
            intro hji
            subst hji
            rw [hget] at hgj
            have hg : g = file := by simpa using hgj.symm
            subst hg
            rw [hnamej] at hlib
            have := hany fileName
            rw [hc] at this
            rw [← this] at hlib
            exact Bool.false_ne_true hlib
          refine ⟨fun nm => hany nm, ?_⟩
          simp only
          rw [getElem?_set_of_ne acc.newFrontendFiles j i _ hne]
          exact hget

lemma applyFold_preserves (lib : List UploadedFile) (i : Nat) (file : UploadedFile)
    (hlib : lib.any (fun f => f.name = file.name) = true) :
    ∀ (groups : List (String × List RefactorChange)) (acc : ApplyAcc),
      (∀ nm, acc.newLibraryFiles.any (fun f => f.name = nm) = lib.any (fun f => f.name = nm)) →
      acc.newFrontendFiles[i]? = some file →
      (groups.foldl (fun acc g => applyStep acc g.1 g.2) acc).newFrontendFiles[i]? =
        some file := by
  intro groups
  induction groups with
  | nil => intro acc _ hget; exact hget
  | cons g gs ih =>
      intro acc hany hget
      simp only [List.foldl_cons]
      obtain ⟨h1, h2⟩ := applyStep_preserves lib i file hlib acc g.1 g.2 hany hget
      exact ih (applyStep acc g.1 g.2) h1 h2

/-! Helper lemmas computing whole runs of applyChangesToFiles. -/

lemma applyChanges_single_file (nm : String) (content : List Char) (cnt : Nat)
    (changes : List RefactorChange) (hne : changes ≠ [])
    (hall : ∀ c ∈ changes, c.fileName = nm) :
    applyChangesToFiles changes [⟨nm, content, cnt⟩] [] =
      ⟨[⟨nm, (applyFileChanges content changes).content,
          cnt + ((applyFileChanges content changes).applied.filter
            (fun c => c.fileName = nm)).length⟩],
        [], (applyFileChanges content changes).failed⟩ := by
  unfold applyChangesToFiles
  rw [groupByFileName_single nm changes hne hall]
  simp only [List.foldl_cons, List.foldl_nil]
  unfold applyStep
  simp [findFile]

lemma applied_filter_all (content : List Char) (changes : List RefactorChange) (nm : String)
    (hall : ∀ c ∈ changes, c.fileName = nm) :
    (applyFileChanges content changes).applied.filter (fun c => c.fileName = nm) =
      (applyFileChanges content changes).applied := by
  apply List.filter_eq_self.mpr
  intro c hc
  rcases applyFileChanges_fold_mem changes ⟨content, [], [], []⟩ c hc with h | h
  · simp at h
  · simp [hall c h]

lemma applyFileChanges_len (content : List Char) (changes : List RefactorChange) :
    (applyFileChanges content changes).applied.length +
      (applyFileChanges content changes).failed.length = changes.length := by
  have := applyFileChanges_fold_len changes ⟨content, [], [], []⟩
  simpa [applyFileChanges] using this

lemma applyChanges_single_not_found (change : RefactorChange) (lib fe : List UploadedFile)
    (hlib : ∀ f ∈ lib, f.name = change.fileName →
        ∀ k ≤ f.content.length, matchAt f.content change.originalCodeSnippet k = false)
    (hfe : ∀ f ∈ fe, f.name = change.fileName →
        ∀ k ≤ f.content.length, matchAt f.content change.originalCodeSnippet k = false) :
    applyChangesToFiles [change] lib fe =
      ⟨lib, fe, [⟨change, FailReason.SNIPPET_NOT_FOUND⟩]⟩ := by
  unfold applyChangesToFiles
  rw [groupByFileName_single change.fileName [change] (by simp) (by simp)]
  simp only [List.foldl_cons, List.foldl_nil]
  unfold applyStep
  cases hc : lib.any (fun f => f.name = change.fileName) with
  | true =>
      simp only [hc, if_true]
      cases hff : findFile lib change.fileName with
      | none =>
          obtain ⟨j, f, hf⟩ := findFile_of_any lib change.fileName hc
          rw [hff] at hf
          cases hf
      | some p =>
          obtain ⟨j, f⟩ := p
          obtain ⟨hgj, hnamej⟩ := findFile_some lib change.fileName j f hff
          have hmem : f ∈ lib := getElem?_mem_of_some lib j f hgj
          have hnm := hlib f hmem hnamej
          have happ : applyFileChanges f.content [change] =
              ⟨f.content, [], [], [⟨change, FailReason.SNIPPET_NOT_FOUND⟩]⟩ := by
            unfold applyFileChanges
            simp only [List.foldl_cons, List.foldl_nil]
            exact applyOneChange_not_found ⟨f.content, [], [], []⟩ change hnm
          simp only [happ]
          show ApplyAcc.mk (lib.set j f) fe
              ([] ++ [⟨change, FailReason.SNIPPET_NOT_FOUND⟩]) =

            ApplyAcc.mk lib fe [⟨change, FailReason.SNIPPET_NOT_FOUND⟩]
          rw [set_getElem?_self lib j f hgj]
          simp
  | false =>
      simp only [hc, Bool.false_eq_true, if_false]
      cases hff : findFile fe change.fileName with
      | none => rfl
      | some p =>
          obtain ⟨j, f⟩ := p
          obtain ⟨hgj, hnamej⟩ := findFile_some fe change.fileName j f hff
          have hmem : f ∈ fe := getElem?_mem_of_some fe j f hgj
          have hnm := hfe f hmem hnamej
          have happ : applyFileChanges f.content [change] =
              ⟨f.content, [], [], [⟨change, FailReason.SNIPPET_NOT_FOUND⟩]⟩ := by
            unfold applyFileChanges
            simp only [List.foldl_cons, List.foldl_nil]
            exact applyOneChange_not_found ⟨f.content, [], [], []⟩ change hnm
          simp only [happ]
          show ApplyAcc.mk lib (fe.set j f)
              ([] ++ [⟨change, FailReason.SNIPPET_NOT_FOUND⟩]) =
            ApplyAcc.mk lib fe [⟨change, FailReason.SNIPPET_NOT_FOUND⟩]
          rw [set_getElem?_self fe j f hgj]
          simp

lemma confirmGo_exhaust
    (co : RefactorResult → List FailedChange → List UploadedFile → List UploadedFile →
      Option RefactorResult) (rr : Option RecRef) (result : RefactorResult) (st : AppState)
    (hfail : 0 < (applyChangesToFiles (result.mainChange :: result.relatedChanges)
      st.libraryFiles st.frontendFiles).failedChanges.length) :
    confirmGo co rr 0 result st =
      (st, ConfirmOutcome.maxAttemptsError
        ((applyChangesToFiles (result.mainChange :: result.relatedChanges)
          st.libraryFiles st.frontendFiles).failedChanges.map (fun f => f.change.fileName)),
        1) := by
  simp only [confirmGo, hfail, if_true]

lemma confirmGo_fail_step
    (co : RefactorResult → List FailedChange → List UploadedFile → List UploadedFile →
      Option RefactorResult) (rr : Option RecRef) (r : Nat) (result : RefactorResult)
    (st : AppState) (corrected : RefactorResult)
    (hfail : 0 < (applyChangesToFiles (result.mainChange :: result.relatedChanges)
      st.libraryFiles st.frontendFiles).failedChanges.length)
    (hco : co result (applyChangesToFiles (result.mainChange :: result.relatedChanges)
      st.libraryFiles st.frontendFiles).failedChanges st.libraryFiles st.frontendFiles =
      some corrected) :
    confirmGo co rr (r + 1) result st =
      ((confirmGo co rr r corrected st).1, (confirmGo co rr r corrected st).2.1,
        (confirmGo co rr r corrected st).2.2 + 1) := by
  simp only [confirmGo, hfail, if_true]
  rw [hco]

/-! Helper lemmas characterizing the grouping and the routing of a group
to the library copy of its file. -/

lemma getElem?_set_at {α : Type} :
    ∀ (l : List α) (m : Nat) (x g : α), l[m]? = some x → (l.set m g)[m]? = some g := by
  intro l
  induction l with
  | nil => intro m x g h; simp at h
  | cons a as ih =>
      intro m x g h
      cases m with
      | zero => simp
      | succ k =>
          simp only [List.getElem?_cons_succ] at h
          simp only [List.set_cons_succ, List.getElem?_cons_succ]
          exact ih k x g h

lemma any_of_findFile :
    ∀ (l : List UploadedFile) (nm : String) (j : Nat) (f : UploadedFile),
      findFile l nm = some (j, f) → l.any (fun x => x.name = nm) = true := by
  intro l nm j f h
  obtain ⟨hget, hname⟩ := findFile_some l nm j f h
  have hmem : f ∈ l := getElem?_mem_of_some l j f hget
  exact List.any_eq_true.mpr ⟨f, hmem, by simp [hname]⟩

lemma findFile_set_same_name :
    ∀ (l : List UploadedFile) (m : Nat) (gOld g : UploadedFile) (nm : String)
      (j : Nat) (f : UploadedFile),
      l[m]? = some gOld → g.name = gOld.name → gOld.name ≠ nm →
      findFile l nm = some (j, f) → findFile (l.set m g) nm = some (j, f) := by
  intro l
  induction l with
  | nil => intro m gOld g nm j f hm; simp at hm
  | cons a as ih =>
      intro m gOld g nm j f hm hg hne hfind
      cases m with
      | zero =>
          simp only [List.getElem?_cons_zero, Option.some.injEq] at hm
          subst hm
          by_cases ha : a.name = nm
          · exact absurd ha hne
          · have hgn : ¬(g.name = nm) := by rw [hg]; exact ha
            unfold findFile at hfind ⊢
            rw [if_neg ha] at hfind
            simp only [List.set_cons_zero]
            rw [if_neg hgn]
            exact hfind
      | succ k =>
          simp only [List.getElem?_cons_succ] at hm
          simp only [List.set_cons_succ]
          unfold findFile at hfind ⊢
          by_cases ha : a.name = nm
          · rw [if_pos ha] at hfind
            rw [if_pos ha]
            exact hfind
          · rw [if_neg ha] at hfind
            rw [if_neg ha]
            cases hrec : findFile as nm with
            | none => rw [hrec] at hfind; simp at hfind
            | some p =>
                obtain ⟨j2, f2⟩ := p
                rw [hrec] at hfind
                rw [ih k gOld g nm j2 f2 hm hg hne hrec]
                exact hfind

lemma groupExtend_fst (c : RefactorChange) (g : String × List RefactorChange) :
    (if g.1 = c.fileName then (g.1, g.2 ++ [c]) else g).1 = g.1 := by
  split <;> rfl

lemma map_groupExtend_of_ne (c : RefactorChange) :
    ∀ (l : List (String × List RefactorChange)), (∀ g ∈ l, ¬(g.1 = c.fileName)) →
      l.map (fun g => if g.1 = c.fileName then (g.1, g.2 ++ [c]) else g) = l := by
  intro l h
  induction l with
  | nil => rfl
  | cons x xs ih =>
      simp only [List.map_cons]
      rw [if_neg (h x (by simp))]
      rw [ih (fun g hg => h g (by simp [hg]))]

lemma map_groupExtend_keys (c : RefactorChange) (nm : String) :
    ∀ (l : List (String × List RefactorChange)), (∀ g ∈ l, g.1 ≠ nm) →
      ∀ g2 ∈ l.map (fun g => if g.1 = c.fileName then (g.1, g.2 ++ [c]) else g),
        g2.1 ≠ nm := by
  intro l h g2 hg2
  obtain ⟨g, hg, hEq⟩ := List.mem_map.mp hg2
  rw [← hEq, groupExtend_fst]
  exact h g hg

lemma groupStep_fold_keyed (nm : String) :
    ∀ (rest : List RefactorChange) (pre0 post0 : List (String × List RefactorChange))
      (part : List RefactorChange),
      (∀ g ∈ pre0, g.1 ≠ nm) → (∀ g ∈ post0, g.1 ≠ nm) →
      ∃ pre post,
        rest.foldl groupStep (pre0 ++ (nm, part) :: post0) =
          pre ++ (nm, part ++ rest.filter (fun c => c.fileName = nm)) :: post ∧
        (∀ g ∈ pre, g.1 ≠ nm) ∧ (∀ g ∈ post, g.1 ≠ nm) := by
  intro rest
  induction rest with
  | nil =>
      intro pre0 post0 part hpre hpost
      refine ⟨pre0, post0, ?_, hpre, hpost⟩
      simp
  | cons c cs ih =>
      intro pre0 post0 part hpre hpost
      simp only [List.foldl_cons]
      by_cases hc : c.fileName = nm
      · have hany : (pre0 ++ (nm, part) :: post0).any (fun g => g.1 = c.fileName) = true :=
          List.any_eq_true.mpr ⟨(nm, part), by simp, by simp [hc]⟩
        have hstep : groupStep (pre0 ++ (nm, part) :: post0) c =
            pre0 ++ (nm, part ++ [c]) :: post0 := by
          simp only [groupStep, hany, if_true, List.map_append, List.map_cons]
          rw [if_pos hc.symm]
          rw [map_groupExtend_of_ne c pre0 (fun g hg => by rw [hc]; exact hpre g hg)]
          rw [map_groupExtend_of_ne c post0 (fun g hg => by rw [hc]; exact hpost g hg)]
        rw [hstep]
        obtain ⟨pre, post, heq, h1, h2⟩ := ih pre0 post0 (part ++ [c]) hpre hpost
        exact ⟨pre, post, by simpa [List.filter_cons, hc, List.append_assoc] using heq,
          h1, h2⟩
      · have hfc : ¬((nm, part).1 = c.fileName) := fun h => hc h.symm
        cases hany : (pre0 ++ (nm, part) :: post0).any (fun g => g.1 = c.fileName) with
        | true =>
            have hstep : groupStep (pre0 ++ (nm, part) :: post0) c =
                pre0.map (fun g => if g.1 = c.fileName then (g.1, g.2 ++ [c]) else g) ++
                  (nm, part) ::
                  post0.map (fun g => if g.1 = c.fileName then (g.1, g.2 ++ [c]) else g) := by
              simp only [groupStep, hany, if_true, List.map_append, List.map_cons]
              rw [if_neg hfc]
            rw [hstep]
            obtain ⟨pre, post, heq, h1, h2⟩ :=
              ih (pre0.map (fun g => if g.1 = c.fileName then (g.1, g.2 ++ [c]) else g))
                (post0.map (fun g => if g.1 = c.fileName then (g.1, g.2 ++ [c]) else g))
                part (map_groupExtend_keys c nm pre0 hpre)
                (map_groupExtend_keys c nm post0 hpost)
            exact ⟨pre, post, by simpa [List.filter_cons, hc] using heq, h1, h2⟩
        | false =>
            have hstep : groupStep (pre0 ++ (nm, part) :: post0) c =
                pre0 ++ (nm, part) :: (post0 ++ [(c.fileName, [c])]) := by
              simp only [groupStep, hany, Bool.false_eq_true, if_false]
              simp [List.append_assoc]
            rw [hstep]
            obtain ⟨pre, post, heq, h1, h2⟩ :=
              ih pre0 (post0 ++ [(c.fileName, [c])]) part hpre
                (by
                  intro g hg
                  rcases List.mem_append.mp hg with h | h
                  · exact hpost g h
                  · simp at h
                    rw [h]
                    exact hc)
            exact ⟨pre, post, by simpa [List.filter_cons, hc] using heq, h1, h2⟩

lemma groupStep_fold_fresh (nm : String) :
    ∀ (rest : List RefactorChange) (acc : List (String × List RefactorChange)),
      (∀ g ∈ acc, g.1 ≠ nm) → rest.filter (fun c => c.fileName = nm) ≠ [] →
      ∃ pre post,
        rest.foldl groupStep acc =
          pre ++ (nm, rest.filter (fun c => c.fileName = nm)) :: post ∧
        (∀ g ∈ pre, g.1 ≠ nm) ∧ (∀ g ∈ post, g.1 ≠ nm) := by
  intro rest
  induction rest with
  | nil => intro acc h hfil; simp at hfil
  | cons c cs ih =>
      intro acc hacc hfil
      simp only [List.foldl_cons]
      by_cases hc : c.fileName = nm
      · have hany : acc.any (fun g => g.1 = c.fileName) = false := by
          apply List.any_eq_false.mpr
          intro g hg
          simp only [decide_eq_true_eq]
          rw [hc]
          exact hacc g hg
        have hstep : groupStep acc c = acc ++ (nm, [c]) :: [] := by
          unfold groupStep
          rw [hany]
          simp [hc]
        rw [hstep]
        obtain ⟨pre, post, heq, h1, h2⟩ :=
          groupStep_fold_keyed nm cs acc [] [c] hacc (by intro g hg; simp at hg)
        exact ⟨pre, post, by simpa [List.filter_cons, hc] using heq, h1, h2⟩
      · have hfil2 : cs.filter (fun x => x.fileName = nm) ≠ [] := by
          simpa [List.filter_cons, hc] using hfil
        cases hany : acc.any (fun g => g.1 = c.fileName) with
        | true =>
            have hstep : groupStep acc c =
                acc.map (fun g => if g.1 = c.fileName then (g.1, g.2 ++ [c]) else g) := by
              simp [groupStep, hany]
            rw [hstep]
            obtain ⟨pre, post, heq, h1, h2⟩ :=
              ih (acc.map (fun g => if g.1 = c.fileName then (g.1, g.2 ++ [c]) else g))
                (map_groupExtend_keys c nm acc hacc) hfil2
            exact ⟨pre, post, by simpa [List.filter_cons, hc] using heq, h1, h2⟩
        | false =>
            have hstep : groupStep acc c = acc ++ [(c.fileName, [c])] := by
              simp [groupStep, hany]
            rw [hstep]
            obtain ⟨pre, post, heq, h1, h2⟩ :=
              ih (acc ++ [(c.fileName, [c])])
                (by
                  intro g hg
                  rcases List.mem_append.mp hg with h | h
                  · exact hacc g h
                  · simp at h
                    rw [h]
                    exact hc) hfil2
            exact ⟨pre, post, by simpa [List.filter_cons, hc] using heq, h1, h2⟩

lemma applyStep_findFile_preserved (nm : String) (j : Nat) (f : UploadedFile) :
    ∀ (acc : ApplyAcc) (k : String) (changes : List RefactorChange),
      k ≠ nm → findFile acc.newLibraryFiles nm = some (j, f) →
      findFile (applyStep acc k changes).newLibraryFiles nm = some (j, f) := by
  intro acc k changes hk hfind
  unfold applyStep
  cases hc : acc.newLibraryFiles.any (fun x => x.name = k) with
  | true =>
      simp only [hc, if_true]
      cases hff : findFile acc.newLibraryFiles k with
      | none => exact hfind
      | some p =>
          obtain ⟨m, gOld⟩ := p
          obtain ⟨hgm, hname⟩ := findFile_some acc.newLibraryFiles k m gOld hff
          simp only
          exact findFile_set_same_name acc.newLibraryFiles m gOld
            { gOld with content := (applyFileChanges gOld.content changes).content,
                        changesCount := gOld.changesCount +
                          ((applyFileChanges gOld.content changes).applied.filter
                            (fun c => c.fileName = k)).length } nm j f hgm rfl
            (by rw [hname]; exact hk) hfind
  | false =>
      simp only [hc, Bool.false_eq_true, if_false]
      cases hff : findFile acc.newFrontendFiles k with
      | none => exact hfind
      | some p =>
          obtain ⟨m, g⟩ := p
          exact hfind

lemma applyFold_findFile_preserved (nm : String) (j : Nat) (f : UploadedFile) :
    ∀ (groups : List (String × List RefactorChange)) (acc : ApplyAcc),
      (∀ g ∈ groups, g.1 ≠ nm) → findFile acc.newLibraryFiles nm = some (j, f) →
      findFile ((groups.foldl (fun acc g => applyStep acc g.1 g.2) acc)).newLibraryFiles nm =
        some (j, f) := by
  intro groups
  induction groups with
  | nil => intro acc _ hfind; exact hfind
  | cons g gs ih =>
      intro acc hkeys hfind
      simp only [List.foldl_cons]
      exact ih (applyStep acc g.1 g.2) (fun x hx => hkeys x (by simp [hx]))
        (applyStep_findFile_preserved nm j f acc g.1 g.2 (hkeys g (by simp)) hfind)

lemma applyStep_entry_preserved (nm : String) (j : Nat) (patched : UploadedFile)
    (hpn : patched.name = nm) :
    ∀ (acc : ApplyAcc) (k : String) (changes : List RefactorChange),
      k ≠ nm → acc.newLibraryFiles[j]? = some patched →
      (applyStep acc k changes).newLibraryFiles[j]? = some patched := by
  intro acc k changes hk hget
  unfold applyStep
  cases hc : acc.newLibraryFiles.any (fun x => x.name = k) with
  | true =>
      simp only [hc, if_true]
      cases hff : findFile acc.newLibraryFiles k with
      | none => exact hget
      | some p =>
          obtain ⟨m, gOld⟩ := p
          obtain ⟨hgm, hname⟩ := findFile_some acc.newLibraryFiles k m gOld hff
          have hmj : m ≠ j := by
            intro h
            subst h
            rw [hget] at hgm
            have hgp : gOld = patched := by simpa using hgm.symm
            rw [hgp, hpn] at hname
            exact hk hname.symm
          simp only
          rw [getElem?_set_of_ne acc.newLibraryFiles m j _ hmj]
          exact hget
  | false =>
      simp only [hc, Bool.false_eq_true, if_false]
      cases hff : findFile acc.newFrontendFiles k with
      | none => exact hget
      | some p =>
          obtain ⟨m, g⟩ := p
          exact hget

lemma applyFold_entry_preserved (nm : String) (j : Nat) (patched : UploadedFile)
    (hpn : patched.name = nm) :
    ∀ (groups : List (String × List RefactorChange)) (acc : ApplyAcc),
      (∀ g ∈ groups, g.1 ≠ nm) → acc.newLibraryFiles[j]? = some patched →
      ((groups.foldl (fun acc g => applyStep acc g.1 g.2) acc)).newLibraryFiles[j]? =
        some patched := by
  intro groups
  induction groups with
  | nil => intro acc _ hget; exact hget
  | cons g gs ih =>
      intro acc hkeys hget
      simp only [List.foldl_cons]
      exact ih (applyStep acc g.1 g.2) (fun x hx => hkeys x (by simp [hx]))
        (applyStep_entry_preserved nm j patched hpn acc g.1 g.2 (hkeys g (by simp)) hget)

lemma applyStep_applies_group (nm : String) (j : Nat) (f : UploadedFile) :
    ∀ (acc : ApplyAcc) (changes : List RefactorChange),
      findFile acc.newLibraryFiles nm = some (j, f) →
      (applyStep acc nm changes).newLibraryFiles[j]? =
        some (patchFileWith f changes nm) := by
  intro acc changes hfind
  obtain ⟨hj, hfn⟩ := findFile_some _ nm j f hfind
  have hany := any_of_findFile _ nm j f hfind
  unfold applyStep
  simp only [hany, if_true, hfind]
  exact getElem?_set_at _ j f _ hj

/-! The claims. -/

/-- C1: the claim (and spec section 8) states that for file content
"AAAxBBB", applying Change1 (AAA to Z) and Change2 (BBB to Y) in one batch
yields "ZxY" with no failures.  The code does not satisfy this: the first
replacement is shorter than its original, so the cumulative offset is
negative (1 - 3 = -2), the search restart index `max(0, naiveIndex -
offset)` jumps to 4, past the only occurrence of "BBB" in the already
patched content "ZxBBB", and the second change is reported as
SNIPPET_NOT_FOUND.  This theorem evaluates the embedded code at exactly the
spec's example: the result is "ZxBBB" with one failed change, not "ZxY"
with none.  The offset machinery exists precisely to keep the second
change's location valid, so this is a bug in the code rather than a wrong
specification. -/
theorem C1_offset_corrupts_second_change_on_shorter_replacement :
    applyChangesToFiles
      [⟨"a.gs", none, "AAA".toList, "Z".toList⟩, ⟨"a.gs", none, "BBB".toList, "Y".toList⟩]
      [⟨"a.gs", "AAAxBBB".toList, 0⟩] [] =
    ⟨[⟨"a.gs", "ZxBBB".toList, 1⟩], [],
      [⟨⟨"a.gs", none, "BBB".toList, "Y".toList⟩, FailReason.SNIPPET_NOT_FOUND⟩]⟩ := by
  decide

/-- C9: a Change whose originalSnippet is not byte-identical to any
substring of the target file's content at the moment it is processed is
reported as failed with SNIPPET_NOT_FOUND and the content is not altered on
its account.  First conjunct: the per-change loop body (App.tsx lines
331-361) at an arbitrary mid-pass state whose current content nowhere
matches the snippet leaves everything but the failure list unchanged.
Second conjunct: a whole applyChangesToFiles run on one such change returns
both file lists entirely unchanged and exactly one SNIPPET_NOT_FOUND
failure. -/
theorem C9_snippet_not_found_reported_and_content_unchanged :
    (∀ (st : FileApplyState) (change : RefactorChange),
      (∀ k ≤ st.content.length, matchAt st.content change.originalCodeSnippet k = false) →
      applyOneChange st change =
        { st with failed := st.failed ++ [⟨change, FailReason.SNIPPET_NOT_FOUND⟩] }) ∧
    (∀ (change : RefactorChange) (lib fe : List UploadedFile),
      (∀ f ∈ lib, f.name = change.fileName →
        ∀ k ≤ f.content.length, matchAt f.content change.originalCodeSnippet k = false) →
      (∀ f ∈ fe, f.name = change.fileName →
        ∀ k ≤ f.content.length, matchAt f.content change.originalCodeSnippet k = false) →
      applyChangesToFiles [change] lib fe =
        ⟨lib, fe, [⟨change, FailReason.SNIPPET_NOT_FOUND⟩]⟩) :=
  ⟨applyOneChange_not_found, applyChanges_single_not_found⟩

/-- Witness for C9 at a concrete input: snippet "Q" occurs nowhere in file
content "AB". -/
theorem C9_witness :
    applyOneChange ⟨"AB".toList, [], [], []⟩ ⟨"g", none, "Q".toList, "R".toList⟩ =
      { content := "AB".toList, patches := [], applied := [],
        failed := [⟨⟨"g", none, "Q".toList, "R".toList⟩, FailReason.SNIPPET_NOT_FOUND⟩] } ∧
    applyChangesToFiles [⟨"g", none, "Q".toList, "R".toList⟩] [⟨"g", "AB".toList, 0⟩] [] =
      ⟨[⟨"g", "AB".toList, 0⟩], [],
        [⟨⟨"g", none, "Q".toList, "R".toList⟩, FailReason.SNIPPET_NOT_FOUND⟩]⟩ :=
  ⟨C9_snippet_not_found_reported_and_content_unchanged.1
      ⟨"AB".toList, [], [], []⟩ ⟨"g", none, "Q".toList, "R".toList⟩ (by decide),
    C9_snippet_not_found_reported_and_content_unchanged.2
      ⟨"g", none, "Q".toList, "R".toList⟩ [⟨"g", "AB".toList, 0⟩] []
      (by decide) (by decide)⟩

/-- C10: when a change's fileName occurs in both the library and the
frontend file list, the change is applied only to the library copy (App.tsx
lines 314-317 prefer the library list), and the frontend file of the same
name keeps its content and changesCount unchanged.  First conjunct, for
every batch: any frontend entry whose name also occurs among the library
files survives any applyChangesToFiles run entirely unchanged.  Second
conjunct, for every batch: the first library file named nm (as
findFile/findIndex resolves it) does receive its changes — whenever the
batch contains at least one change for nm, the resulting library list holds
at that position exactly that file patched by its group of the batch (the
changes whose fileName is nm, in batch order), with its changesCount
incremented by the group's applied-patch count.  Together: the change lands
in the library copy and only there. -/
theorem C10_change_applied_to_library_copy_frontend_untouched :
    (∀ (allChanges : List RefactorChange) (lib fe : List UploadedFile) (i : Nat)
        (file : UploadedFile),
      fe[i]? = some file →
      lib.any (fun f => f.name = file.name) = true →
      (applyChangesToFiles allChanges lib fe).newFrontendFiles[i]? = some file) ∧
    (∀ (allChanges : List RefactorChange) (lib fe : List UploadedFile) (nm : String)
        (j : Nat) (f : UploadedFile),
      findFile lib nm = some (j, f) →
      allChanges.filter (fun c => c.fileName = nm) ≠ [] →
      (applyChangesToFiles allChanges lib fe).newLibraryFiles[j]? =
        some (patchFileWith f (allChanges.filter (fun c => c.fileName = nm)) nm)) := by
  constructor
  · intro allChanges lib fe i file hget hany
    unfold applyChangesToFiles
    exact applyFold_preserves lib i file hany (groupByFileName allChanges) ⟨lib, fe, []⟩
      (fun nm => rfl) hget
  · intro allChanges lib fe nm j f hff hfil
    obtain ⟨pre, post, hdecomp, hpre, hpost⟩ :=
      groupStep_fold_fresh nm allChanges [] (by intro g hg; simp at hg) hfil
    unfold applyChangesToFiles
    unfold groupByFileName
    rw [hdecomp, List.foldl_append, List.foldl_cons]
    have h1 : findFile ((pre.foldl (fun acc g => applyStep acc g.1 g.2)
        (⟨lib, fe, []⟩ : ApplyAcc))).newLibraryFiles nm = some (j, f) :=
      applyFold_findFile_preserved nm j f pre ⟨lib, fe, []⟩ hpre hff
    obtain ⟨hj1, hfn⟩ := findFile_some _ nm j f h1
    have hstep := applyStep_applies_group nm j f
      (pre.foldl (fun acc g => applyStep acc g.1 g.2) (⟨lib, fe, []⟩ : ApplyAcc))
      (allChanges.filter (fun c => c.fileName = nm)) h1
    exact applyFold_entry_preserved nm j
      (patchFileWith f (allChanges.filter (fun c => c.fileName = nm)) nm) hfn post _
      hpost hstep

/-- Witness for C10 at a concrete input: the name "shared" occurs in both
halves; the batch patches the library copy (content "L" becomes "M",
changesCount 1) while the frontend copy survives unchanged. -/
theorem C10_witness :
    (applyChangesToFiles [⟨"shared", none, "L".toList, "M".toList⟩]
      [⟨"shared", "L".toList, 0⟩] [⟨"shared", "F".toList, 7⟩]).newFrontendFiles[0]? =
      some ⟨"shared", "F".toList, 7⟩ ∧
    (applyChangesToFiles [⟨"shared", none, "L".toList, "M".toList⟩]
      [⟨"shared", "L".toList, 0⟩] [⟨"shared", "F".toList, 7⟩]).newLibraryFiles[0]? =
      some ⟨"shared", "M".toList, 1⟩ :=
  ⟨C10_change_applied_to_library_copy_frontend_untouched.1
      [⟨"shared", none, "L".toList, "M".toList⟩] [⟨"shared", "L".toList, 0⟩]
      [⟨"shared", "F".toList, 7⟩] 0 ⟨"shared", "F".toList, 7⟩ (by decide) (by decide),
    C10_change_applied_to_library_copy_frontend_untouched.2
      [⟨"shared", none, "L".toList, "M".toList⟩] [⟨"shared", "L".toList, 0⟩]
      [⟨"shared", "F".toList, 7⟩] "shared" 0 ⟨"shared", "L".toList, 0⟩
      (by decide) (by decide)⟩

/-- Counterexample for C3: the claim says that when two changes' original
snippet spans overlap in the file's content, exactly one is applied and the
other is reported as a failure.  The code has no overlap detection at all.
Here both changes carry the same snippet "AB", whose first occurrence in
"ABAB" spans [0, 2) for both changes (the first conjunct pins that span
down), i.e. the spans overlap (they coincide) — yet both changes are
applied: the run returns content "CDCD", changesCount 2, and an empty
failure list, so it is false that one of the two is reported as a
failure. -/
theorem C3_counterexample_overlapping_spans_both_applied :
    jsIndexOf "ABAB".toList "AB".toList 0 = some 0 ∧
    ("AB".toList : List Char).length = 2 ∧
    applyChangesToFiles
      [⟨"f", none, "AB".toList, "CD".toList⟩, ⟨"f", none, "AB".toList, "CD".toList⟩]
      [⟨"f", "ABAB".toList, 0⟩] [] =
    ⟨[⟨"f", "CDCD".toList, 2⟩], [], []⟩ := by
  decide

/-- C3 amended: there is no overlap detection; the second change is dropped
exactly when its snippet no longer occurs anywhere in the already-patched
content.  For a two-change batch on one file where the first change's
snippet is found (at its first occurrence i1) and, after splicing in the
replacement, the second change's snippet occurs nowhere in the patched
content, exactly one change (the first, by scan order) is applied and the
other is reported as a SNIPPET_NOT_FOUND failure; this outcome is a pure
function of the input, hence deterministic across runs. -/
theorem C3_amended_second_change_fails_when_snippet_gone :
    ∀ (nm : String) (content : List Char) (cnt : Nat) (c1 c2 : RefactorChange) (i1 : Nat),
      c1.fileName = nm → c2.fileName = nm →
      jsIndexOf content c1.originalCodeSnippet 0 = some i1 →
      (∀ k ≤ (content.take i1 ++ c1.correctedCodeSnippet ++
          content.drop (i1 + c1.originalCodeSnippet.length)).length,
        matchAt (content.take i1 ++ c1.correctedCodeSnippet ++
          content.drop (i1 + c1.originalCodeSnippet.length)) c2.originalCodeSnippet k = false) →
      applyChangesToFiles [c1, c2] [⟨nm, content, cnt⟩] [] =
        ⟨[⟨nm, content.take i1 ++ c1.correctedCodeSnippet ++
            content.drop (i1 + c1.originalCodeSnippet.length), cnt + 1⟩],
          [], [⟨c2, FailReason.SNIPPET_NOT_FOUND⟩]⟩ := by
  intro nm content cnt c1 c2 i1 h1 h2 hfound hgone
  have hall : ∀ c ∈ [c1, c2], c.fileName = nm := by
    intro c hc
    simp only [List.mem_cons, List.not_mem_nil, or_false] at hc
    rcases hc with rfl | rfl
    · exact h1
    · exact h2
  rw [applyChanges_single_file nm content cnt [c1, c2] (by simp) hall]
  have hstep1 : applyOneChange ⟨content, [], [], []⟩ c1 =
      ⟨content.take i1 ++ c1.correctedCodeSnippet ++
          content.drop (i1 + c1.originalCodeSnippet.length),
        [⟨i1, c1.originalCodeSnippet.length, c1⟩], [c1], []⟩ := by
    unfold applyOneChange
    rw [locateChange_first_found content c1 i1 hfound]
    rfl
  have hstep2 : applyFileChanges content [c1, c2] =
      ⟨content.take i1 ++ c1.correctedCodeSnippet ++
          content.drop (i1 + c1.originalCodeSnippet.length),
        [⟨i1, c1.originalCodeSnippet.length, c1⟩], [c1],
        [⟨c2, FailReason.SNIPPET_NOT_FOUND⟩]⟩ := by
    unfold applyFileChanges
    simp only [List.foldl_cons, List.foldl_nil, hstep1]
    exact applyOneChange_not_found _ c2 hgone
  rw [hstep2]
  simp [h1]

/-- Witness for C3's amended theorem at a concrete input: in "AB", the
first change replaces "AB" by "Z" at index 0, after which the second
change's snippet "B" occurs nowhere in "Z". -/
theorem C3_amended_witness :
    applyChangesToFiles
      [⟨"f", none, "AB".toList, "Z".toList⟩, ⟨"f", none, "B".toList, "Y".toList⟩]
      [⟨"f", "AB".toList, 0⟩] [] =
    ⟨[⟨"f", "Z".toList, 1⟩], [],
      [⟨⟨"f", none, "B".toList, "Y".toList⟩, FailReason.SNIPPET_NOT_FOUND⟩]⟩ :=
  C3_amended_second_change_fails_when_snippet_gone "f" "AB".toList 0
    ⟨"f", none, "AB".toList, "Z".toList⟩ ⟨"f", none, "B".toList, "Y".toList⟩ 0
    rfl rfl (by decide) (by decide)

/-- Counterexample for C4: the claim says a file that received at least one
applied patch has its changesCount incremented by exactly 1, once per batch.
The code (App.tsx line 363) instead adds the number of applied patches: a
batch of two patches on file content "AAxBB", both of which apply, yields
changesCount 2, not 1. -/
theorem C4_counterexample_two_patches_increment_by_two :
    applyChangesToFiles
      [⟨"f", none, "AA".toList, "CC".toList⟩, ⟨"f", none, "BB".toList, "DD".toList⟩]
      [⟨"f", "AAxBB".toList, 0⟩] [] =
    ⟨[⟨"f", "CCxDD".toList, 2⟩], [], []⟩ := by
  decide

/-- C4 amended: applyChangesToFiles increments the file's changesCount by
the number of successfully applied patches of this batch targeting it,
which equals the batch's change count for that file minus its reported
failures (so a file with at least one applied patch is incremented by at
least 1, but a multi-patch batch counts each patch).  Stated for a
single-file project and a batch entirely targeting it, with arbitrary
content and changes. -/
theorem C4_amended_changesCount_counts_each_applied_patch :
    ∀ (nm : String) (content : List Char) (cnt : Nat) (changes : List RefactorChange),
      changes ≠ [] → (∀ c ∈ changes, c.fileName = nm) →
      applyChangesToFiles changes [⟨nm, content, cnt⟩] [] =
        ⟨[⟨nm, (applyFileChanges content changes).content,
            cnt + (changes.length -
              (applyChangesToFiles changes [⟨nm, content, cnt⟩] []).failedChanges.length)⟩],
          [], (applyFileChanges content changes).failed⟩ := by
  intro nm content cnt changes hne hall
  rw [applyChanges_single_file nm content cnt changes hne hall]
  rw [applied_filter_all content changes nm hall]
  have hlen := applyFileChanges_len content changes
  have hcount : ((applyFileChanges content changes).applied).length =
      changes.length - ((applyFileChanges content changes).failed).length := by omega
  rw [hcount]

/-- Witness for C4's amended theorem at a concrete input: both patches of
the "AAxBB" batch apply and no failure is reported, so the count rises by
2 - 0 = 2. -/
theorem C4_amended_witness :
    applyChangesToFiles
      [⟨"f", none, "AA".toList, "CC".toList⟩, ⟨"f", none, "BB".toList, "DD".toList⟩]
      [⟨"f", "AAxBB".toList, 3⟩] [] =
    ⟨[⟨"f", (applyFileChanges "AAxBB".toList
        [⟨"f", none, "AA".toList, "CC".toList⟩, ⟨"f", none, "BB".toList, "DD".toList⟩]).content,
        3 + (2 - (applyChangesToFiles
          [⟨"f", none, "AA".toList, "CC".toList⟩, ⟨"f", none, "BB".toList, "DD".toList⟩]
          [⟨"f", "AAxBB".toList, 3⟩] []).failedChanges.length)⟩],
      [], (applyFileChanges "AAxBB".toList
        [⟨"f", none, "AA".toList, "CC".toList⟩, ⟨"f", none, "BB".toList, "DD".toList⟩]).failed⟩ :=
  C4_amended_changesCount_counts_each_applied_patch "f" "AAxBB".toList 3
    [⟨"f", none, "AA".toList, "CC".toList⟩, ⟨"f", none, "BB".toList, "DD".toList⟩]
    (by decide) (by decide)

/-- C2: after a batch commits successfully (single-recommendation path or
batch path), an immediate undo() restores the library file set, the
frontend file set and the analysis state to exactly the values they had
immediately before the batch was applied: the commit pushes a snapshot of
the pre-apply state and handleUndo restores the top snapshot wholesale. -/
theorem C2_undo_restores_preapply_state :
    (∀ (co : RefactorResult → List FailedChange → List UploadedFile → List UploadedFile →
        Option RefactorResult) (result : RefactorResult) (attempt : Nat)
        (rr : Option RecRef) (st st' : AppState) (n : Nat),
      handleConfirmRefactor co result attempt rr st = (st', ConfirmOutcome.committed, n) →
      (handleUndo st').libraryFiles = st.libraryFiles ∧
      (handleUndo st').frontendFiles = st.frontendFiles ∧
      (handleUndo st').analysisResult = st.analysisResult) ∧
    (∀ (fixes : List SelectedFix) (batchResult : Option BatchRefactorResult)
        (st st' : AppState),
      handleBatchApply fixes batchResult st = (st', BatchOutcome.success) →
      (handleUndo st').libraryFiles = st.libraryFiles ∧
      (handleUndo st').frontendFiles = st.frontendFiles ∧
      (handleUndo st').analysisResult = st.analysisResult) := by
  constructor
  · intro co result attempt rr st st' n h
    unfold handleConfirmRefactor at h
    obtain ⟨res, ar, hshape⟩ :=
      confirmGo_committed_shape co rr (MAX_ATTEMPTS - attempt) result st st' n h
    subst hshape
    exact handleUndo_of_push _ st.undoStack
      ⟨st.libraryFiles, st.frontendFiles, st.analysisResult⟩ rfl
  · intro fixes batchResult st st' h
    cases hemp : fixes.isEmpty with
    | true => simp [handleBatchApply, hemp] at h
    | false =>
        cases batchResult with
        | none => simp [handleBatchApply, hemp] at h
        | some result =>
            by_cases hfail : (applyChangesToFiles result.changes st.libraryFiles
                st.frontendFiles).failedChanges.length = result.changes.length ∧
                0 < result.changes.length
            · simp [handleBatchApply, hemp, hfail] at h
            · simp only [handleBatchApply, hemp, Bool.false_eq_true, if_false,
                if_neg hfail, Prod.mk.injEq] at h
              obtain ⟨h1, _⟩ := h
              subst h1
              exact handleUndo_of_push _ st.undoStack
                ⟨st.libraryFiles, st.frontendFiles, st.analysisResult⟩ rfl

/-- Witness for C2 at concrete inputs: committing `A to B` on file "f"
(content "A") through either path, then undoing, yields back content "A"
with changesCount 0 and the original (absent) analysis. -/
theorem C2_witness :
    ((handleUndo (⟨[⟨"f", "B".toList, 1⟩], [], none,
        [⟨[⟨"f", "A".toList, 0⟩], [], none⟩]⟩ : AppState)).libraryFiles =
          [⟨"f", "A".toList, 0⟩] ∧
      (handleUndo (⟨[⟨"f", "B".toList, 1⟩], [], none,
        [⟨[⟨"f", "A".toList, 0⟩], [], none⟩]⟩ : AppState)).frontendFiles = [] ∧
      (handleUndo (⟨[⟨"f", "B".toList, 1⟩], [], none,
        [⟨[⟨"f", "A".toList, 0⟩], [], none⟩]⟩ : AppState)).analysisResult = none) ∧
    ((handleUndo (⟨[⟨"f", "B".toList, 1⟩], [], none,
        [⟨[⟨"f", "A".toList, 0⟩], [], none⟩]⟩ : AppState)).libraryFiles =
          [⟨"f", "A".toList, 0⟩] ∧
      (handleUndo (⟨[⟨"f", "B".toList, 1⟩], [], none,
        [⟨[⟨"f", "A".toList, 0⟩], [], none⟩]⟩ : AppState)).frontendFiles = [] ∧
      (handleUndo (⟨[⟨"f", "B".toList, 1⟩], [], none,
        [⟨[⟨"f", "A".toList, 0⟩], [], none⟩]⟩ : AppState)).analysisResult = none) :=
  ⟨C2_undo_restores_preapply_state.1 (fun _ _ _ _ => none)
      ⟨⟨"f", none, "A".toList, "B".toList⟩, [], []⟩ 1 none
      ⟨[⟨"f", "A".toList, 0⟩], [], none, []⟩
      ⟨[⟨"f", "B".toList, 1⟩], [], none, [⟨[⟨"f", "A".toList, 0⟩], [], none⟩]⟩ 1
      (by decide),
    C2_undo_restores_preapply_state.2 [⟨"f", ⟨"d", none, [], none, none⟩, 0, 0⟩]
      (some ⟨[⟨"f", none, "A".toList, "B".toList⟩], []⟩)
      ⟨[⟨"f", "A".toList, 0⟩], [], none, []⟩
      ⟨[⟨"f", "B".toList, 1⟩], [], none, [⟨[⟨"f", "A".toList, 0⟩], [], none⟩]⟩
      (by decide)⟩

/-- C5: when every attempted candidate fails to locate at least one change
(the original plan and each of the collaborator's corrections), the
single-recommendation apply loop performs exactly MAX_ATTEMPTS = 3
applyChangesToFiles runs (the returned counter), terminates with the
unrecoverable maxAttemptsError carrying the file names of the final
attempt's still-failing changes, and leaves the state untouched.  The
first conjunct pins down the three-attempt chain (r1, then the correction
r2 of r1's failures, then the correction r3 of r2's failures); the second
conjunct bounds any run started at attempt 1 by MAX_ATTEMPTS apply runs,
so the loop can never exceed three attempts or loop forever. -/
theorem C5_correction_loop_exhausts_after_exactly_three_attempts :
    (∀ (co : RefactorResult → List FailedChange → List UploadedFile → List UploadedFile →
        RefactorResult) (rr : Option RecRef) (st : AppState) (r1 r2 r3 : RefactorResult),
      r2 = co r1 (attemptFailures r1 st) st.libraryFiles st.frontendFiles →
      r3 = co r2 (attemptFailures r2 st) st.libraryFiles st.frontendFiles →
      attemptFailures r1 st ≠ [] →
      attemptFailures r2 st ≠ [] →
      attemptFailures r3 st ≠ [] →
      handleConfirmRefactor (fun a b c d => some (co a b c d)) r1 1 rr st =
        (st, ConfirmOutcome.maxAttemptsError
          ((attemptFailures r3 st).map (fun f => f.change.fileName)), 3)) ∧
    (∀ (co : RefactorResult → List FailedChange → List UploadedFile → List UploadedFile →
        Option RefactorResult) (result : RefactorResult) (rr : Option RecRef) (st : AppState),
      (handleConfirmRefactor co result 1 rr st).2.2 ≤ MAX_ATTEMPTS) := by
  constructor
  · intro co rr st r1 r2 r3 hr2 hr3 h1 h2 h3
    have e1 := confirmGo_fail_step (fun a b c d => some (co a b c d)) rr 1 r1 st r2
      (List.length_pos.mpr h1) (congrArg some hr2.symm)
    have e2 := confirmGo_fail_step (fun a b c d => some (co a b c d)) rr 0 r2 st r3
      (List.length_pos.mpr h2) (congrArg some hr3.symm)
    have e3 := confirmGo_exhaust (fun a b c d => some (co a b c d)) rr r3 st
      (List.length_pos.mpr h3)
    simp only [Nat.zero_add] at e2
    unfold handleConfirmRefactor
    have hrem : MAX_ATTEMPTS - 1 = 1 + 1 := rfl
    rw [hrem, e1, e2, e3]
    rfl
  · intro co result rr st
    unfold handleConfirmRefactor
    exact confirmGo_count_le co rr (MAX_ATTEMPTS - 1) result st

/-- Witness for C5 at a concrete input: the snippet "Q" never occurs in the
project, and the collaborator keeps returning the same broken plan. -/
theorem C5_witness :
    handleConfirmRefactor
      (fun a b c d => some ((fun _ _ _ _ => (⟨⟨"f", none, "Q".toList, "R".toList⟩, [], []⟩ :
        RefactorResult)) a b c d))
      ⟨⟨"f", none, "Q".toList, "R".toList⟩, [], []⟩ 1 none
      ⟨[⟨"f", "AB".toList, 0⟩], [], none, []⟩ =
    (⟨[⟨"f", "AB".toList, 0⟩], [], none, []⟩,
      ConfirmOutcome.maxAttemptsError
        ((attemptFailures ⟨⟨"f", none, "Q".toList, "R".toList⟩, [], []⟩
          ⟨[⟨"f", "AB".toList, 0⟩], [], none, []⟩).map (fun f => f.change.fileName)), 3) :=
  C5_correction_loop_exhausts_after_exactly_three_attempts.1
    (fun _ _ _ _ => ⟨⟨"f", none, "Q".toList, "R".toList⟩, [], []⟩) none
    ⟨[⟨"f", "AB".toList, 0⟩], [], none, []⟩
    ⟨⟨"f", none, "Q".toList, "R".toList⟩, [], []⟩
    ⟨⟨"f", none, "Q".toList, "R".toList⟩, [], []⟩
    ⟨⟨"f", none, "Q".toList, "R".toList⟩, [], []⟩
    rfl rfl (by decide) (by decide) (by decide)

/-- C6: if the final attempt (attempt = MAX_ATTEMPTS) still has failing
changes, the loop returns through the maxAttemptsError branch and no change
of the recommendation is committed: the library and frontend file lists of
the resulting state are exactly the ones the run started from. -/
theorem C6_no_commit_when_final_attempt_fails :
    ∀ (co : RefactorResult → List FailedChange → List UploadedFile → List UploadedFile →
        Option RefactorResult) (result : RefactorResult) (attempt : Nat)
      (rr : Option RecRef) (st st' : AppState) (names : List String) (n : Nat),
      handleConfirmRefactor co result attempt rr st =
        (st', ConfirmOutcome.maxAttemptsError names, n) →
      st'.libraryFiles = st.libraryFiles ∧ st'.frontendFiles = st.frontendFiles := by
  intro co result attempt rr st st' names n h
  unfold handleConfirmRefactor at h
  have hne : (confirmGo co rr (MAX_ATTEMPTS - attempt) result st).2.1 ≠
      ConfirmOutcome.committed := by
    rw [h]
    simp
  have heq := confirmGo_not_committed co rr (MAX_ATTEMPTS - attempt) result st hne
  rw [h] at heq
  simp only at heq
  subst heq
  exact ⟨rfl, rfl⟩

/-- Witness for C6 at a concrete input: the exhausting run of C5's witness
scenario leaves the single library file "f" (content "AB") untouched. -/
theorem C6_witness :
    (⟨[⟨"f", "AB".toList, 0⟩], [], none, []⟩ : AppState).libraryFiles =
      (⟨[⟨"f", "AB".toList, 0⟩], [], none, []⟩ : AppState).libraryFiles ∧
    (⟨[⟨"f", "AB".toList, 0⟩], [], none, []⟩ : AppState).frontendFiles =
      (⟨[⟨"f", "AB".toList, 0⟩], [], none, []⟩ : AppState).frontendFiles :=
  C6_no_commit_when_final_attempt_fails
    (fun _ _ _ _ => some ⟨⟨"f", none, "Q".toList, "R".toList⟩, [], []⟩)
    ⟨⟨"f", none, "Q".toList, "R".toList⟩, [], []⟩ 1 none
    ⟨[⟨"f", "AB".toList, 0⟩], [], none, []⟩ ⟨[⟨"f", "AB".toList, 0⟩], [], none, []⟩
    ["f"] 3 (by decide)

/-- Counterexample for C7: the claim says an apply operation that ends in
failure without committing any file mutation leaves the undo stack
unchanged.  The batch path pushes its snapshot (App.tsx lines 489-493)
before calling the generator and before any change is applied: here every
change of the batch fails (outcome allFailed), no file is mutated, and yet
the undo stack has grown from empty to one snapshot. -/
theorem C7_counterexample_failed_batch_still_pushes_snapshot :
    handleBatchApply [⟨"f", ⟨"d", none, [], none, none⟩, 0, 0⟩]
      (some ⟨[⟨"f", none, "QQ".toList, "RR".toList⟩], []⟩)
      ⟨[⟨"f", "AB".toList, 0⟩], [], none, []⟩ =
    (⟨[⟨"f", "AB".toList, 0⟩], [], none, [⟨[⟨"f", "AB".toList, 0⟩], [], none⟩]⟩,
      BatchOutcome.allFailed) := by
  decide

/-- C7 amended: in the single-recommendation path a snapshot is pushed only
on a successful commit — any run that does not commit returns with the undo
stack exactly as it was (first conjunct).  In the batch path, however, a
snapshot of the pre-batch state is pushed unconditionally as soon as any
fix is selected, before the generator is called and regardless of whether
the batch later fails entirely (second conjunct). -/
theorem C7_amended_undo_stack_discipline :
    (∀ (co : RefactorResult → List FailedChange → List UploadedFile → List UploadedFile →
        Option RefactorResult) (result : RefactorResult) (attempt : Nat)
        (rr : Option RecRef) (st : AppState),
      (handleConfirmRefactor co result attempt rr st).2.1 ≠ ConfirmOutcome.committed →
      (handleConfirmRefactor co result attempt rr st).1.undoStack = st.undoStack) ∧
    (∀ (fixes : List SelectedFix) (batchResult : Option BatchRefactorResult) (st : AppState),
      fixes ≠ [] →
      (handleBatchApply fixes batchResult st).1.undoStack =
        pushToUndoStack st.undoStack ⟨st.libraryFiles, st.frontendFiles, st.analysisResult⟩) := by
  constructor
  · intro co result attempt rr st h
    unfold handleConfirmRefactor at h ⊢
    rw [confirmGo_not_committed co rr (MAX_ATTEMPTS - attempt) result st h]
  · intro fixes batchResult st hne
    have hemp : fixes.isEmpty = false := by
      cases fixes with
      | nil => exact absurd rfl hne
      | cons a as => rfl
    cases batchResult with
    | none => simp [handleBatchApply, hemp]
    | some result =>
        by_cases hfail : (applyChangesToFiles result.changes st.libraryFiles
            st.frontendFiles).failedChanges.length = result.changes.length ∧
            0 < result.changes.length
        · simp [handleBatchApply, hemp, hfail]
        · simp [handleBatchApply, hemp, hfail]

/-- Witness for C7's amended theorem at concrete inputs: an exhausted
correction run leaves the stack empty, and a batch run whose generator
throws has still pushed its snapshot. -/
theorem C7_amended_witness :
    (handleConfirmRefactor
        (fun _ _ _ _ => some ⟨⟨"f", none, "Q".toList, "R".toList⟩, [], []⟩)
        ⟨⟨"f", none, "Q".toList, "R".toList⟩, [], []⟩ 1 none
        ⟨[⟨"f", "AB".toList, 0⟩], [], none, []⟩).1.undoStack = [] ∧
    (handleBatchApply [⟨"f", ⟨"d", none, [], none, none⟩, 0, 0⟩] none
        ⟨[⟨"f", "AB".toList, 0⟩], [], none, []⟩).1.undoStack =
      pushToUndoStack [] ⟨[⟨"f", "AB".toList, 0⟩], [], none⟩ :=
  ⟨C7_amended_undo_stack_discipline.1
      (fun _ _ _ _ => some ⟨⟨"f", none, "Q".toList, "R".toList⟩, [], []⟩)
      ⟨⟨"f", none, "Q".toList, "R".toList⟩, [], []⟩ 1 none
      ⟨[⟨"f", "AB".toList, 0⟩], [], none, []⟩ (by decide),
    C7_amended_undo_stack_discipline.2 [⟨"f", ⟨"d", none, [], none, none⟩, 0, 0⟩] none
      ⟨[⟨"f", "AB".toList, 0⟩], [], none, []⟩ (by decide)⟩

/-- Counterexample for C8: the claim says a retry replaces only the failed
changes' entries and carries every successfully applied change into the
next attempt unchanged.  Here attempt 1 applies the main change (A to X on
content "AB") and fails on the related change (Q to R); the collaborator
returns a plan containing only `B to Y`.  Were the successful `A to X`
carried over, attempt 2 would commit content "XY"; the code instead runs
attempt 2 on the collaborator's plan alone against the untouched files and
commits "AY" — the previously successful change is discarded. -/
theorem C8_counterexample_successful_change_not_carried :
    handleConfirmRefactor
      (fun _ _ _ _ => some ⟨⟨"f", none, "B".toList, "Y".toList⟩, [], []⟩)
      ⟨⟨"f", none, "A".toList, "X".toList⟩, [⟨"f", none, "Q".toList, "R".toList⟩], []⟩
      1 none ⟨[⟨"f", "AB".toList, 0⟩], [], none, []⟩ =
    (⟨[⟨"f", "AY".toList, 1⟩], [], none, [⟨[⟨"f", "AB".toList, 0⟩], [], none⟩]⟩,
      ConfirmOutcome.committed, 2) := by
  decide

/-- C8 amended: on a retry transition the entire candidate RefactorResult
is replaced by the collaborator's returned result — no merging with the
previous attempt's successful changes takes place, and nothing is committed
between attempts: a failing attempt below the limit behaves exactly like a
fresh run of the loop on the collaborator's result at attempt + 1 against
the unchanged state, with the apply counter incremented. -/
theorem C8_amended_retry_replaces_entire_plan :
    ∀ (co : RefactorResult → List FailedChange → List UploadedFile → List UploadedFile →
        Option RefactorResult) (result : RefactorResult) (attempt : Nat)
      (rr : Option RecRef) (st : AppState) (corrected : RefactorResult),
      attemptFailures result st ≠ [] →
      attempt < MAX_ATTEMPTS →
      co result (attemptFailures result st) st.libraryFiles st.frontendFiles =
        some corrected →
      handleConfirmRefactor co result attempt rr st =
        ((handleConfirmRefactor co corrected (attempt + 1) rr st).1,
          (handleConfirmRefactor co corrected (attempt + 1) rr st).2.1,
          (handleConfirmRefactor co corrected (attempt + 1) rr st).2.2 + 1) := by
  intro co result attempt rr st corrected hfail hlt hco
  have hMA : MAX_ATTEMPTS = 3 := rfl
  unfold handleConfirmRefactor
  have hrem : MAX_ATTEMPTS - attempt = (MAX_ATTEMPTS - (attempt + 1)) + 1 := by omega
  rw [hrem]
  exact confirmGo_fail_step co rr (MAX_ATTEMPTS - (attempt + 1)) result st corrected
    (List.length_pos.mpr hfail) hco

/-- Witness for C8's amended theorem at the counterexample's inputs. -/
theorem C8_amended_witness :
    handleConfirmRefactor
      (fun _ _ _ _ => some ⟨⟨"f", none, "B".toList, "Y".toList⟩, [], []⟩)
      ⟨⟨"f", none, "A".toList, "X".toList⟩, [⟨"f", none, "Q".toList, "R".toList⟩], []⟩
      1 none ⟨[⟨"f", "AB".toList, 0⟩], [], none, []⟩ =
    ((handleConfirmRefactor
        (fun _ _ _ _ => some ⟨⟨"f", none, "B".toList, "Y".toList⟩, [], []⟩)
        ⟨⟨"f", none, "B".toList, "Y".toList⟩, [], []⟩ 2 none
        ⟨[⟨"f", "AB".toList, 0⟩], [], none, []⟩).1,
      (handleConfirmRefactor
        (fun _ _ _ _ => some ⟨⟨"f", none, "B".toList, "Y".toList⟩, [], []⟩)
        ⟨⟨"f", none, "B".toList, "Y".toList⟩, [], []⟩ 2 none
        ⟨[⟨"f", "AB".toList, 0⟩], [], none, []⟩).2.1,
      (handleConfirmRefactor
        (fun _ _ _ _ => some ⟨⟨"f", none, "B".toList, "Y".toList⟩, [], []⟩)
        ⟨⟨"f", none, "B".toList, "Y".toList⟩, [], []⟩ 2 none
        ⟨[⟨"f", "AB".toList, 0⟩], [], none, []⟩).2.2 + 1) :=
  C8_amended_retry_replaces_entire_plan
    (fun _ _ _ _ => some ⟨⟨"f", none, "B".toList, "Y".toList⟩, [], []⟩)
    ⟨⟨"f", none, "A".toList, "X".toList⟩, [⟨"f", none, "Q".toList, "R".toList⟩], []⟩
    1 none ⟨[⟨"f", "AB".toList, 0⟩], [], none, []⟩
    ⟨⟨"f", none, "B".toList, "Y".toList⟩, [], []⟩
    (by decide) (by decide) rfl
